import Mathlib

/-!
Verification development for the go-local-RAG retrieval pipeline.

The Go source is shallowly embedded:
* `fields`, `trimSpace`, `toLowerStr`, `hasSuffix`, `replaceChar` model the
  `strings` package functions the source uses (`Fields`, `TrimSpace`,
  `ToLower`, `HasSuffix`, `ReplaceAll` with a one-character pattern), as
  structural recursions over the character list so they evaluate by `decide`.
* `RAGService.ChunkText` models the windowed chunker `(*RAGService).ChunkText`.
* `RAGService.GenerateEmbedding` models `(*RAGService).GenerateEmbedding`, with
  the single outbound HTTP call and the JSON decoding of its body as oracles.
* `RAGService.IndexDocument` models `(*RAGService).IndexDocument`; the
  repository insert is an oracle that may fail, and the rows persisted by the
  call are threaded explicitly.
* `SearchSimilar` models `(*PostgresRepository).SearchSimilar`; the ranking and
  LIMIT semantics executed by the external database are modelled from the spec.
* `uploadSelect` / `uploadAndIndex` model the body of `NewUploadHandler`.
* `sseEvents`, `forwardedTokens` and `queryHandlerSearchCall` model the body of
  `NewQueryHandler` (the SSE token-relay loop and the search-call construction).

Vector components are modelled as rationals (`ℚ`): the claims under
verification concern control flow, ordering and cardinality, never
floating-point rounding.
-/

/-- Model of Go `strings.Fields`: split around maximal runs of whitespace,
keeping only the non-empty pieces. `acc` holds the characters of the word
currently being read, in reverse. -/
def fieldsAux : List Char → List Char → List String
  | [], acc => if acc = [] then [] else [String.mk acc.reverse]
  | c :: cs, acc =>
    if c.isWhitespace then
      (if acc = [] then [] else [String.mk acc.reverse]) ++ fieldsAux cs []
    else fieldsAux cs (c :: acc)

/-- Model of Go `strings.Fields`. -/
def fields (s : String) : List String := fieldsAux s.data []

/-- Model of Go `strings.TrimSpace`: drop leading and trailing whitespace. -/
def trimSpace (s : String) : String :=
  ⟨((s.data.dropWhile Char.isWhitespace).reverse.dropWhile Char.isWhitespace).reverse⟩

/-- Model of Go `strings.ToLower` (character-wise lowercasing). -/
def toLowerStr (s : String) : String := ⟨s.data.map Char.toLower⟩

/-- Model of Go `strings.HasSuffix`. -/
def hasSuffix (s t : String) : Bool :=
  if t.data.length ≤ s.data.length then
    s.data.drop (s.data.length - t.data.length) == t.data
  else false

/-- Model of Go `strings.ReplaceAll` for a one-character pattern: every
occurrence of `target` is replaced by `repl`. -/
def replaceChar (target : Char) (repl : List Char) : List Char → List Char
  | [] => []
  | c :: rest => (if c = target then repl else [c]) ++ replaceChar target repl rest

/-- Model of the `RAGService` struct (src/unnamed/part_001, lines 16-24).
The `repo` and `httpClient` fields are external handles (database connection
and HTTP client); they carry no data the verified claims depend on and are
supplied as oracles at each call site instead. -/
structure RAGService where
  ollamaURL : String
  embeddingModel : String
  llmModel : String
  chunkSize : Int
  chunkOverlap : Int

/-- The step computation of `ChunkText` (part_001 lines 48-51):
`step := chunkSize - chunkOverlap; if step <= 0 { step = chunkSize }`. -/
def chunkStep (size overlap : Int) : Int :=
  if size - overlap ≤ 0 then size else size - overlap

/-- The `for i := 0; i < len(words); i += step` loop of `ChunkText`
(part_001 lines 52-62): at start `i`, take the slice `words[i:end]` with
`end = min (i+size) (len words)`, join it with single spaces, and stop as soon
as `end` reaches the end of `words`. The extra `fuel` argument only realises
the loop as a structural recursion; `ChunkText` passes `words.length + 1`,
which is never exhausted for a positive `step` (the loop leaves through its
own guard or `break` first — proved in `chunkLoop_fuel_irrel`). -/
def chunkLoop (size step : Nat) (words : List String) : Nat → Nat → List String
  | _, 0 => []
  | i, fuel + 1 =>
    if i < words.length then
      let e := min (i + size) words.length
      let c := String.intercalate " " ((words.drop i).take (e - i))
      if e = words.length then [c] else c :: chunkLoop size step words (i + step) fuel
    else []

/-- Model of `(*RAGService).ChunkText` (part_001 lines 42-64). -/
def RAGService.ChunkText (s : RAGService) (text : String) : List String :=
  if s.chunkSize ≤ 0 then [text]
  else
    chunkLoop s.chunkSize.toNat (chunkStep s.chunkSize s.chunkOverlap).toNat
      (fields text) 0 ((fields text).length + 1)

/-- The errors `GenerateEmbedding` can return (part_001 lines 66-94), one
constructor per `return nil, ...` site. `status` carries the upstream status
code and (the rendering of) the decoded error body, exactly the data the Go
code interpolates into `"ollama embeddings status %d: %v"`. -/
inductive EmbedError where
  | network (err : String)
  | status (code : Nat) (body : String)
  | parse (err : String)
  | emptyVector
deriving DecidableEq

/-- What the single `httpClient.Post` of `GenerateEmbedding` yields when it
completes: the HTTP status code, the raw body rendering used in the non-200
error message, and the result of JSON-decoding the body into
`ollamaEmbedResp` (an embedding vector, or a decode error). -/
structure OllamaEmbedHttpResp where
  status : Nat
  rawBody : String
  decodedEmbed : Except String (List ℚ)

/-- Model of `(*RAGService).GenerateEmbedding` (part_001 lines 66-94).
`post` is the outcome of the one outbound HTTP call (`.error` = transport
failure). The initial `json.Marshal` of the fixed-shape request map of two
strings cannot fail in Go, so that error branch is dead and not modelled. -/
def RAGService.GenerateEmbedding (post : Except String OllamaEmbedHttpResp) :
    Except EmbedError (List ℚ) :=
  match post with
  | .error e => .error (.network e)
  | .ok resp =>
    if resp.status ≠ 200 then .error (.status resp.status resp.rawBody)
    else
      match resp.decodedEmbed with
      | .error e => .error (.parse e)
      | .ok v => if v = [] then .error .emptyVector else .ok v

/-- The errors `IndexDocument` can return (part_001 lines 100-106):
`fmt.Errorf("embedding chunk %d: %w", i, err)` and
`fmt.Errorf("storing chunk %d: %w", i, err)`. -/
inductive IndexError where
  | embeddingChunk (i : Nat) (err : String)
  | storingChunk (i : Nat) (err : String)
deriving DecidableEq

/-- Whether processing one chunk succeeds: embedding returns a vector and the
repository insert reports no error. `embed` is the embedding oracle (the
outcome of `GenerateEmbedding` at this text) and `insertFail` the repository's
response to `InsertChunk` (`none` = success). -/
def chunkOk (embed : String → Except String (List ℚ))
    (insertFail : String → String → List ℚ → Option String)
    (source ch : String) : Bool :=
  match embed ch with
  | .error _ => false
  | .ok v => (insertFail ch source v).isNone

/-- The vector `embed` produces on `ch`, defaulting to `[]` when it fails
(only ever read at texts where `embed` succeeds). -/
def embedVal (embed : String → Except String (List ℚ)) (ch : String) : List ℚ :=
  match embed ch with
  | .ok v => v
  | .error _ => []

/-- The `for i, ch := range chunks` loop of `IndexDocument` (part_001 lines
99-107): embed the chunk, then insert it; stop at the first failure, returning
the error annotated with the zero-based chunk index. `persisted` accumulates
the rows `(content, source, vector)` the repository has durably inserted. -/
def indexLoop (embed : String → Except String (List ℚ))
    (insertFail : String → String → List ℚ → Option String) (source : String) :
    List String → Nat → List (String × String × List ℚ) →
      List (String × String × List ℚ) × Option IndexError
  | [], _, persisted => (persisted, none)
  | ch :: rest, i, persisted =>
    match embed ch with
    | .error e => (persisted, some (.embeddingChunk i e))
    | .ok emb =>
      match insertFail ch source emb with
      | some e => (persisted, some (.storingChunk i e))
      | none => indexLoop embed insertFail source rest (i + 1) (persisted ++ [(ch, source, emb)])

/-- Model of `(*RAGService).IndexDocument` (part_001 lines 97-109): chunk the
content, then run the sequential embed-and-insert loop from index 0, starting
with no rows inserted by this call. Returns the rows this call persisted and
the error, if any. -/
def RAGService.IndexDocument (s : RAGService) (embed : String → Except String (List ℚ))
    (insertFail : String → String → List ℚ → Option String)
    (content source : String) :
    List (String × String × List ℚ) × Option IndexError :=
  indexLoop embed insertFail source (s.ChunkText content) 0 []

/-- Model of the `Document` record (src/unnamed/part_000 lines 12-17). -/
structure Document where
  id : Int
  content : String
  source : String
  vector : List ℚ
deriving DecidableEq

/-- Modelled from the spec: `(*PostgresRepository).SearchSimilar`
(src/unnamed/part_000 lines 74-93) issues
`SELECT ... ORDER BY embedding <=> $1 LIMIT $2`; the ranking and LIMIT
semantics of that statement are executed by the external Postgres backend,
whose code is not part of this repository. Following the spec's store contract
(§4.3), the stored rows are ranked by the backend's distance metric against
the query vector, ascending (cosine distance in this design, supplied here as
the abstract metric `dist`), and at most `topK` rows are returned; a
non-positive `topK` yields no rows. Absent a backend failure the result is a
fully populated ordered sequence, never a partial one. -/
def SearchSimilar (dist : List ℚ → List ℚ → ℚ) (store : List Document)
    (queryEmbedding : List ℚ) (topK : Int) : Except String (List Document) :=
  .ok ((store.insertionSort
        (fun a b => dist a.vector queryEmbedding ≤ dist b.vector queryEmbedding)).take
        topK.toNat)

/-- The tail of `NewUploadHandler` (src/handlers/upload.go lines 46-54) after
the file branch has fixed a candidate `content`/`source` pair: fall back to
the `text` form value (with the fixed source sentinel `"user_text"`) when the
file content is empty, then reject content that trims to empty. -/
def finishSelect (text contentFromFile sourceFromFile : String) :
    Except String (String × String) :=
  let c := if contentFromFile = "" then text else contentFromFile
  let s := if contentFromFile = "" then "user_text" else sourceFromFile
  if trimSpace c = "" then .error "no se proporcionó texto ni archivo"
  else .ok (c, s)

/-- Model of the content/source selection of `NewUploadHandler`
(src/handlers/upload.go lines 26-54). `file` is `some (filename, bytes)` when
the multipart request carries a readable file part, `none` otherwise.
`.error msg` is the handler's HTTP 400 (ValidationError) response, at which
point `indexFn` is never invoked; `.ok (content, source)` is the pair passed
to `indexFn`. -/
def uploadSelect (text : String) (file : Option (String × String)) :
    Except String (String × String) :=
  match file with
  | some (filename, fileBytes) =>
    if hasSuffix (toLowerStr filename) ".txt" = false then
      .error "solo se aceptan archivos .txt"
    else finishSelect text fileBytes filename
  | none => finishSelect text "" ""

/-- The content the upload handler ends up validating: the file bytes when a
file part with non-empty content is present, the `text` form value otherwise.
Mirrors the fallback in upload.go lines 46-49. -/
def effectiveContent (text : String) (file : Option (String × String)) : String :=
  match file with
  | some (_, fileBytes) => if fileBytes = "" then text else fileBytes
  | none => text

/-- The upload endpoint composed with the indexing service (upload.go line 57
calling `indexFn = svc.IndexDocument`). `.error msg` means the handler
rejected the request before any indexing work: no chunk was embedded and no
row was inserted. -/
def uploadAndIndex (svc : RAGService) (embed : String → Except String (List ℚ))
    (insertFail : String → String → List ℚ → Option String)
    (text : String) (file : Option (String × String)) :
    Except String (List (String × String × List ℚ) × Option IndexError) :=
  match uploadSelect text file with
  | .error msg => .error msg
  | .ok (content, source) => .ok (svc.IndexDocument embed insertFail content source)

/-- One decoded increment of the generation backend's streaming body
(query.go lines 74-77): a partial-text field and a completion flag. -/
structure GenChunk where
  response : String
  done : Bool
deriving DecidableEq

/-- The decoded increment stream `dec.Decode` yields: each element is either a
well-formed increment or a non-EOF decode error; the end of the list is
`io.EOF`. -/
abbrev GenStream := List (Except String GenChunk)

/-- Newline escaping applied to each forwarded token before it is written as
SSE data (query.go line 89): `strings.ReplaceAll(chunk.Response, "\n", "\\n")`. -/
def escapeNewlines (s : String) : String := ⟨replaceChar '\n' ['\\', 'n'] s.data⟩

/-- Newline flattening applied to a decode error before it is written as an
SSE error event (query.go line 83): `strings.ReplaceAll(err.Error(), "\n", " ")`. -/
def escapeErrText (s : String) : String := ⟨replaceChar '\n' [' '] s.data⟩

/-- One Server-Sent Event written by the streaming loop of `NewQueryHandler`:
a `data:` token frame, an `event: error` frame, or the terminal `event: done`
frame. -/
inductive SseEvent where
  | data (payload : String)
  | errorEvent (payload : String)
  | doneEvent
deriving DecidableEq

/-- Whether an SSE event is terminal for the stream (`done` or `error`). -/
def SseEvent.isTerminal : SseEvent → Bool
  | .data _ => false
  | .errorEvent _ => true
  | .doneEvent => true

/-- The SSE events written by the `for { dec.Decode ... }` loop of
`NewQueryHandler` (query.go lines 72-98): a decode error emits one error event
and stops; `io.EOF` (end of list) just stops; otherwise a non-empty partial
text is forwarded (newline-escaped) immediately, and the first increment with
the completion flag set emits the done event and stops. -/
def sseEvents : GenStream → List SseEvent
  | [] => []
  | .error e :: _ => [.errorEvent (escapeErrText e)]
  | .ok c :: rest =>
    (if c.response = "" then [] else [.data (escapeNewlines c.response)]) ++
      (if c.done then [.doneEvent] else sseEvents rest)

/-- The raw partial-text tokens the same loop forwards, in order: the
`chunk.Response` values written as data frames, before wire escaping. -/
def forwardedTokens : GenStream → List String
  | [] => []
  | .error _ :: _ => []
  | .ok c :: rest =>
    (if c.response = "" then [] else [c.response]) ++
      (if c.done then [] else forwardedTokens rest)

/-- The full generated text of an increment stream: the concatenation of every
partial-text field up to and including the first completion-flagged increment
(generation stops there). -/
def genTextUntilDone : List GenChunk → String
  | [] => ""
  | c :: rest => c.response ++ (if c.done then "" else genTextUntilDone rest)

/-- Concatenation of a token list, in order. -/
def concatAll : List String → String
  | [] => ""
  | s :: rest => s ++ concatAll rest

/-- Whether the decoded stream reaches a decode error or a completion-flagged
increment before end-of-stream — i.e. whether the streaming loop exits through
one of the two branches that write a terminal event. -/
def hasTerminalTrigger : GenStream → Bool
  | [] => false
  | .error _ :: _ => true
  | .ok c :: rest => c.done || hasTerminalTrigger rest

/-- A request to the query endpoint: the HTTP method and the URL query
parameters, as key/value pairs. -/
structure QueryRequest where
  method : String
  params : List (String × String)

/-- Model of `r.URL.Query().Get(key)`: the value of the first parameter with
the given key, or `""` when absent. -/
def getParam (ps : List (String × String)) (key : String) : String :=
  match ps.find? (fun p => p.1 = key) with
  | some p => p.2
  | none => ""

/-- The search call `NewQueryHandler` makes (query.go lines 22-36): `none`
when the request is rejected before retrieval (wrong method, missing `q`),
otherwise `some (question, topK)` — the arguments passed to `searchFn`. The
handler sets `topK := 50` unconditionally and reads no other parameter. -/
def queryHandlerSearchCall (req : QueryRequest) : Option (String × Int) :=
  if req.method ≠ "GET" then none
  else
    let question := trimSpace (getParam req.params "q")
    if question = "" then none
    else some (question, 50)

example : RAGService.ChunkText ⟨"", "", "", 4, 2⟩ "the sky is blue the grass is green" =
    ["the sky is blue", "is blue the grass", "the grass is green"] := by decide
example : RAGService.ChunkText ⟨"", "", "", 2, 5⟩ "a b c d e" =
    ["a b", "c d", "e"] := by decide
example : RAGService.ChunkText ⟨"", "", "", 0, 0⟩ "a b" = ["a b"] := by decide

/-! ### Chunker lemmas -/

/-- For a positive step, the chunking loop leaves through its own guard or
`break` before exhausting any fuel above the remaining word count: the result
does not depend on the fuel. This is the termination argument for the Go
`for` loop. -/
theorem chunkLoop_fuel_irrel (size step : Nat) (hstep : 0 < step) (words : List String) :
    ∀ fuel₁ fuel₂ i, words.length - i < fuel₁ → words.length - i < fuel₂ →
      chunkLoop size step words i fuel₁ = chunkLoop size step words i fuel₂ := by
  intro fuel₁
  induction fuel₁ with
  | zero => intro fuel₂ i h₁ h₂; omega
  | succ f ih =>
    intro fuel₂ i h₁ h₂
    cases fuel₂ with
    | zero => omega
    | succ g =>
      simp only [chunkLoop]
      by_cases hi : i < words.length
      · simp only [hi, if_true]
        by_cases he : min (i + size) words.length = words.length
        · simp [he]
        · simp only [he, if_false]
          have : min (i + size) words.length < words.length := by omega
          exact congrArg _ (ih g (i + step) (by omega) (by omega))
      · simp [hi]

/-- Every element of the chunking loop's output is the space-join of the
window of (at most) `size` words starting `j` steps after `i`. -/
theorem chunkLoop_get (size step : Nat) (hstep : 0 < step) (words : List String) :
    ∀ fuel i, words.length - i < fuel →
      ∀ j, j < (chunkLoop size step words i fuel).length →
        (chunkLoop size step words i fuel).get? j =
          some (String.intercalate " " ((words.drop (i + j * step)).take size)) := by
  intro fuel
  induction fuel with
  | zero => intro i h; omega
  | succ f ih =>
    intro i hfuel j hj
    have hslice : (words.drop i).take (min (i + size) words.length - i) =
        (words.drop i).take size := by
      rw [List.take_eq_take]
      simp only [List.length_drop]
      omega
    by_cases hi : i < words.length
    · simp only [chunkLoop, hi, if_true] at hj ⊢
      by_cases he : min (i + size) words.length = words.length
      · simp only [he, if_true] at hj ⊢
        simp only [List.length_singleton] at hj
        have hj0 : j = 0 := by omega
        subst hj0
        rw [he] at hslice
        simp [hslice]
      · simp only [he, if_false] at hj ⊢
        cases j with
        | zero => simp [hslice]
        | succ j' =>
          have harith : i + (j' + 1) * step = (i + step) + j' * step := by
            rw [Nat.succ_mul]; omega
          simp only [List.get?_cons_succ]
          rw [harith]
          exact ih (i + step) (by omega) j'
            (by simp only [List.length_cons] at hj; omega)
    · simp [chunkLoop, hi] at hj

/-- The chunking loop emits at most one fragment per remaining word. -/
theorem chunkLoop_length_le (size step : Nat) (hstep : 0 < step) (words : List String) :
    ∀ fuel i, words.length - i < fuel →
      (chunkLoop size step words i fuel).length ≤ words.length - i := by
  intro fuel
  induction fuel with
  | zero => intro i h; omega
  | succ f ih =>
    intro i hfuel
    by_cases hi : i < words.length
    · simp only [chunkLoop, hi, if_true]
      by_cases he : min (i + size) words.length = words.length
      · simp [he]; omega
      · simp only [he, if_false, List.length_cons]
        have h₂ := ih (i + step) (by omega)
        have : min (i + size) words.length < words.length := by omega
        omega
    · simp [chunkLoop, hi]

/-- When the loop starts inside the word list and the step is at most the
window size, the output is non-empty and its last window reaches the end of
the word list. -/
theorem chunkLoop_last_covers (size step : Nat) (hstep : 0 < step) (hss : step ≤ size)
    (words : List String) :
    ∀ fuel i, words.length - i < fuel → i < words.length →
      chunkLoop size step words i fuel ≠ [] ∧
      words.length ≤ i + ((chunkLoop size step words i fuel).length - 1) * step + size := by
  intro fuel
  induction fuel with
  | zero => intro i h; omega
  | succ f ih =>
    intro i hfuel hi
    simp only [chunkLoop, hi, if_true]
    by_cases he : min (i + size) words.length = words.length
    · simp only [he, if_true]
      refine ⟨by simp, ?_⟩
      simp only [List.length_singleton]
      omega
    · simp only [he, if_false]
      have hsz : i + size < words.length := by omega
      have h₂ := ih (i + step) (by omega) (by omega)
      refine ⟨by simp, ?_⟩
      rcases h₂ with ⟨hne, hcov⟩
      have hlen : 0 < (chunkLoop size step words (i + step) f).length :=
        List.length_pos.mpr hne
      obtain ⟨m, hm⟩ : ∃ m, (chunkLoop size step words (i + step) f).length = m + 1 :=
        ⟨_, (Nat.succ_pred_eq_of_pos hlen).symm⟩
      simp only [List.length_cons, hm, Nat.add_sub_cancel] at hcov ⊢
      rw [Nat.succ_mul]
      omega

/-- C2: for non-empty text, `size > 0` and `0 ≤ overlap < size`, every fragment
produced by `ChunkText` is the space-join of the ≤ `size`-token window that
starts `j * (size - overlap)` tokens into the whitespace-token sequence (so
successive fragments start `step = size - overlap` tokens apart and carry at
most `size` tokens), the last fragment's window extends exactly to the end of
the token sequence, and the function is deterministic in its input. -/
theorem ChunkText_window_spec (svc : RAGService) (text : String)
    (hs : 0 < svc.chunkSize) (ho : 0 ≤ svc.chunkOverlap)
    (hov : svc.chunkOverlap < svc.chunkSize) :
    (∀ j, j < (svc.ChunkText text).length →
      (svc.ChunkText text).get? j =
        some (String.intercalate " "
          (((fields text).drop (j * (svc.chunkSize - svc.chunkOverlap).toNat)).take
            svc.chunkSize.toNat)) ∧
      (((fields text).drop (j * (svc.chunkSize - svc.chunkOverlap).toNat)).take
          svc.chunkSize.toNat).length ≤ svc.chunkSize.toNat) ∧
    (fields text ≠ [] →
      svc.ChunkText text ≠ [] ∧
      ((fields text).drop (((svc.ChunkText text).length - 1) *
          (svc.chunkSize - svc.chunkOverlap).toNat)).take svc.chunkSize.toNat =
        (fields text).drop (((svc.ChunkText text).length - 1) *
          (svc.chunkSize - svc.chunkOverlap).toNat)) ∧
    (∀ text2, text2 = text → svc.ChunkText text2 = svc.ChunkText text) := by
  have hstep : chunkStep svc.chunkSize svc.chunkOverlap =
      svc.chunkSize - svc.chunkOverlap := by
    unfold chunkStep; rw [if_neg (by omega)]
  have hct : svc.ChunkText text =
      chunkLoop svc.chunkSize.toNat (svc.chunkSize - svc.chunkOverlap).toNat
        (fields text) 0 ((fields text).length + 1) := by
    unfold RAGService.ChunkText
    rw [if_neg (by omega), hstep]
  have hsp : 0 < (svc.chunkSize - svc.chunkOverlap).toNat := by omega
  have hss : (svc.chunkSize - svc.chunkOverlap).toNat ≤ svc.chunkSize.toNat := by omega
  refine ⟨?_, ?_, ?_⟩
  · intro j hj
    rw [hct] at hj ⊢
    refine ⟨?_, List.length_take_le _ _⟩
    have := chunkLoop_get svc.chunkSize.toNat (svc.chunkSize - svc.chunkOverlap).toNat hsp
      (fields text) ((fields text).length + 1) 0 (by omega) j hj
    simpa using this
  · intro hne
    have h0 : 0 < (fields text).length := List.length_pos.mpr hne
    obtain ⟨hne', hcov⟩ := chunkLoop_last_covers svc.chunkSize.toNat
      (svc.chunkSize - svc.chunkOverlap).toNat hsp hss (fields text)
      ((fields text).length + 1) 0 (by omega) h0
    rw [hct]
    refine ⟨hne', ?_⟩
    apply List.take_of_length_le
    simp only [List.length_drop]
    omega
  · intro text2 h; rw [h]

/-- C2 witness: the spec's own scenario (`size = 4`, `overlap = 2`,
`"the sky is blue the grass is green"`): fragment 1 starts `step = 2` tokens
in, and the chunk list is non-empty. -/
theorem ChunkText_window_spec_witness :
    (RAGService.ChunkText ⟨"", "", "", 4, 2⟩ "the sky is blue the grass is green").get? 1 =
      some (String.intercalate " "
        (((fields "the sky is blue the grass is green").drop
          (1 * ((4 : Int) - 2).toNat)).take (4 : Int).toNat)) ∧
    RAGService.ChunkText ⟨"", "", "", 4, 2⟩ "the sky is blue the grass is green" ≠ [] := by
  have h := ChunkText_window_spec ⟨"", "", "", 4, 2⟩ "the sky is blue the grass is green"
    (by decide) (by decide) (by decide)
  exact ⟨(h.1 1 (by decide)).1, (h.2.1 (by decide)).1⟩

/-- C7: for `size > 0` and an arbitrary overlap, chunking terminates — it
emits at most one fragment per token, and any fuel above the token count
yields the same result (the loop leaves through its own guard) — and for
`overlap ≥ size` the step defaults to `size`, so the output coincides with
chunking at overlap `0`. -/
theorem ChunkText_terminates_overlap_capped (svc : RAGService) (text : String)
    (hs : 0 < svc.chunkSize) :
    (svc.ChunkText text).length ≤ (fields text).length ∧
    (∀ fuel, (fields text).length < fuel →
      chunkLoop svc.chunkSize.toNat (chunkStep svc.chunkSize svc.chunkOverlap).toNat
        (fields text) 0 fuel = svc.ChunkText text) ∧
    (svc.chunkSize ≤ svc.chunkOverlap →
      svc.ChunkText text =
        RAGService.ChunkText ⟨svc.ollamaURL, svc.embeddingModel, svc.llmModel,
          svc.chunkSize, 0⟩ text) := by
  have hsp : 0 < (chunkStep svc.chunkSize svc.chunkOverlap).toNat := by
    unfold chunkStep; split <;> omega
  have hct : svc.ChunkText text =
      chunkLoop svc.chunkSize.toNat (chunkStep svc.chunkSize svc.chunkOverlap).toNat
        (fields text) 0 ((fields text).length + 1) := by
    unfold RAGService.ChunkText; rw [if_neg (by omega)]
  refine ⟨?_, ?_, ?_⟩
  · rw [hct]
    have := chunkLoop_length_le svc.chunkSize.toNat
      (chunkStep svc.chunkSize svc.chunkOverlap).toNat hsp (fields text)
      ((fields text).length + 1) 0 (by omega)
    omega
  · intro fuel hfuel
    rw [hct]
    exact chunkLoop_fuel_irrel _ _ hsp (fields text) fuel _ 0 (by omega) (by omega)
  · intro hole
    have h₁ : chunkStep svc.chunkSize svc.chunkOverlap = svc.chunkSize := by
      unfold chunkStep; rw [if_pos (by omega)]
    have h₂ : chunkStep svc.chunkSize 0 = svc.chunkSize := by
      unfold chunkStep; rw [if_neg (by omega)]; omega
    simp only [RAGService.ChunkText]
    rw [if_neg (by omega), if_neg (by omega), h₁, h₂]

/-- C7 witness: `size = 2`, `overlap = 5` on a five-word text — the output is
no longer than the token list and equals chunking with overlap `0`. -/
theorem ChunkText_terminates_overlap_capped_witness :
    (RAGService.ChunkText ⟨"", "", "", 2, 5⟩ "a b c d e").length ≤
      (fields "a b c d e").length ∧
    RAGService.ChunkText ⟨"", "", "", 2, 5⟩ "a b c d e" =
      RAGService.ChunkText ⟨"", "", "", 2, 0⟩ "a b c d e" := by
  have h := ChunkText_terminates_overlap_capped ⟨"", "", "", 2, 5⟩ "a b c d e" (by decide)
  exact ⟨h.1, h.2.2 (by decide)⟩

/-! ### Indexing lemmas -/

/-- If every chunk of the list embeds and inserts successfully, the loop
persists all of them, in order, and returns no error. -/
theorem indexLoop_all_ok (embed : String → Except String (List ℚ))
    (insertFail : String → String → List ℚ → Option String) (source : String) :
    ∀ chunks k acc, (∀ ch ∈ chunks, chunkOk embed insertFail source ch = true) →
      indexLoop embed insertFail source chunks k acc =
        (acc ++ chunks.map (fun ch => (ch, source, embedVal embed ch)), none) := by
  intro chunks
  induction chunks with
  | nil => intro k acc _; simp [indexLoop]
  | cons ch rest ih =>
    intro k acc hok
    have hch := hok ch (by simp)
    cases hemb : embed ch with
    | error e => simp [chunkOk, hemb] at hch
    | ok v =>
      simp only [chunkOk, hemb] at hch
      cases hins : insertFail ch source v with
      | some e => simp [hins] at hch
      | none =>
        simp only [indexLoop, hemb, hins]
        rw [ih (k + 1) (acc ++ [(ch, source, v)])
          (fun c hc => hok c (by simp [hc]))]
        simp [embedVal, hemb]

/-- If every chunk before `ch` succeeds and `ch` fails, the loop persists
exactly the earlier chunks and stops at `ch` with the error of its failing
stage, annotated with `ch`'s position. -/
theorem indexLoop_failure (embed : String → Except String (List ℚ))
    (insertFail : String → String → List ℚ → Option String) (source : String) :
    ∀ pre ch post k acc,
      (∀ c ∈ pre, chunkOk embed insertFail source c = true) →
      chunkOk embed insertFail source ch = false →
      (indexLoop embed insertFail source (pre ++ ch :: post) k acc).1 =
        acc ++ pre.map (fun c => (c, source, embedVal embed c)) ∧
      ((∃ e, embed ch = .error e ∧
          (indexLoop embed insertFail source (pre ++ ch :: post) k acc).2 =
            some (.embeddingChunk (k + pre.length) e)) ∨
       (∃ v e, embed ch = .ok v ∧ insertFail ch source v = some e ∧
          (indexLoop embed insertFail source (pre ++ ch :: post) k acc).2 =
            some (.storingChunk (k + pre.length) e))) := by
  intro pre
  induction pre with
  | nil =>
    intro ch post k acc _ hfail
    simp only [List.nil_append, List.map_nil, List.append_nil, List.length_nil,
      Nat.add_zero]
    cases hemb : embed ch with
    | error e =>
      refine ⟨?_, .inl ⟨e, rfl, ?_⟩⟩ <;> simp [indexLoop, hemb]
    | ok v =>
      simp only [chunkOk, hemb] at hfail
      cases hins : insertFail ch source v with
      | none => simp [hins] at hfail
      | some e =>
        refine ⟨?_, .inr ⟨v, e, rfl, hins, ?_⟩⟩ <;> simp [indexLoop, hemb, hins]
  | cons c pre ih =>
    intro ch post k acc hok hfail
    have hc := hok c (by simp)
    cases hemb : embed c with
    | error e => simp [chunkOk, hemb] at hc
    | ok v =>
      simp only [chunkOk, hemb] at hc
      cases hins : insertFail c source v with
      | some e => simp [hins] at hc
      | none =>
        have hstep : indexLoop embed insertFail source ((c :: pre) ++ ch :: post) k acc =
            indexLoop embed insertFail source (pre ++ ch :: post) (k + 1)
              (acc ++ [(c, source, v)]) := by
          simp [indexLoop, hemb, hins]
        obtain ⟨h1, h2⟩ := ih ch post (k + 1) (acc ++ [(c, source, v)])
          (fun x hx => hok x (by simp [hx])) hfail
        constructor
        · rw [hstep, h1]
          simp [embedVal, hemb]
        · rw [hstep]
          have hlen : k + 1 + pre.length = k + (c :: pre).length := by
            simp [List.length_cons]; omega
          rcases h2 with ⟨e, he, hres⟩ | ⟨v', e, hv, hins', hres⟩
          · exact .inl ⟨e, he, by rw [hres, hlen]⟩
          · exact .inr ⟨v', e, hv, hins', by rw [hres, hlen]⟩

/-- C1: if chunks `0..i-1` of a document all embed and insert successfully and
chunk `i` (named `chi`) fails at either stage, `IndexDocument` leaves exactly
chunks `0..i-1` persisted, in order, with their embedding vectors — no
rollback — and returns the first error, annotated with the zero-based index
`i` and the failing stage. -/
theorem IndexDocument_partial_failure (svc : RAGService)
    (embed : String → Except String (List ℚ))
    (insertFail : String → String → List ℚ → Option String)
    (content source chi : String) (i : Nat)
    (hget : (svc.ChunkText content).get? i = some chi)
    (hprev : ∀ ch ∈ (svc.ChunkText content).take i,
      chunkOk embed insertFail source ch = true)
    (hfail : chunkOk embed insertFail source chi = false) :
    (svc.IndexDocument embed insertFail content source).1 =
      ((svc.ChunkText content).take i).map (fun ch => (ch, source, embedVal embed ch)) ∧
    ((∃ e, embed chi = .error e ∧
        (svc.IndexDocument embed insertFail content source).2 =
          some (.embeddingChunk i e)) ∨
     (∃ v e, embed chi = .ok v ∧ insertFail chi source v = some e ∧
        (svc.IndexDocument embed insertFail content source).2 =
          some (.storingChunk i e))) := by
  have hi : i < (svc.ChunkText content).length := List.get?_eq_some.mp hget |>.1
  have hchi : (svc.ChunkText content)[i] = chi := by
    have := List.get?_eq_some.mp hget
    rcases this with ⟨h, hval⟩
    simpa [List.get_eq_getElem] using hval
  have hsplit : svc.ChunkText content =
      (svc.ChunkText content).take i ++
        chi :: (svc.ChunkText content).drop (i + 1) := by
    conv_lhs => rw [← List.take_append_drop i (svc.ChunkText content)]
    rw [List.drop_eq_getElem_cons hi, hchi]
  have hlen : ((svc.ChunkText content).take i).length = i := by
    simp [List.length_take]
    omega
  have h := indexLoop_failure embed insertFail source
    ((svc.ChunkText content).take i) chi
    ((svc.ChunkText content).drop (i + 1)) 0 [] hprev hfail
  rw [hlen] at h
  simp only [Nat.zero_add, List.nil_append] at h
  unfold RAGService.IndexDocument
  rw [← hsplit] at h
  exact h

/-- C1 witness: the spec's mid-document embedding-failure scenario — three
one-word chunks, the embedding of chunk 1 (zero-based) fails, exactly chunk 0
is persisted and the error names index 1. -/
theorem IndexDocument_partial_failure_witness :
    (RAGService.IndexDocument ⟨"", "", "", 1, 0⟩
        (fun s => if s = "b" then .error "net down" else .ok [1])
        (fun _ _ _ => none) "a b c" "doc").1 = [("a", "doc", [1])] ∧
    (RAGService.IndexDocument ⟨"", "", "", 1, 0⟩
        (fun s => if s = "b" then .error "net down" else .ok [1])
        (fun _ _ _ => none) "a b c" "doc").2 =
      some (.embeddingChunk 1 "net down") := by
  have h := IndexDocument_partial_failure ⟨"", "", "", 1, 0⟩
    (fun s => if s = "b" then .error "net down" else .ok [1])
    (fun _ _ _ => none) "a b c" "doc" "b" 1 (by decide) (by decide) (by decide)
  refine ⟨h.1.trans (by decide), ?_⟩
  rcases h.2 with ⟨e, he, hres⟩ | ⟨v, e, hv, _, _⟩
  · simp only [if_pos rfl] at he
    injection he with he'
    subst he'
    exact hres
  · simp only [if_pos rfl] at hv
    cases hv

/-! ### Upload handler theorems -/

/-- C3: whenever the content selected by the upload handler is empty after
trimming whitespace, the request is rejected with a client-facing validation
error and the indexing service is never invoked — zero embedding calls and
zero store insertions. -/
theorem uploadAndIndex_empty_content_rejected (svc : RAGService)
    (embed : String → Except String (List ℚ))
    (insertFail : String → String → List ℚ → Option String)
    (text : String) (file : Option (String × String))
    (h : trimSpace (effectiveContent text file) = "") :
    ∃ msg, uploadAndIndex svc embed insertFail text file = .error msg := by
  cases file with
  | none =>
    refine ⟨"no se proporcionó texto ni archivo", ?_⟩
    simp only [effectiveContent] at h
    simp [uploadAndIndex, uploadSelect, finishSelect, h]
  | some f =>
    obtain ⟨filename, fileBytes⟩ := f
    cases hext : hasSuffix (toLowerStr filename) ".txt" with
    | false =>
      exact ⟨"solo se aceptan archivos .txt", by simp [uploadAndIndex, uploadSelect, hext]⟩
    | true =>
      refine ⟨"no se proporcionó texto ni archivo", ?_⟩
      simp only [effectiveContent] at h
      by_cases hb : fileBytes = ""
      · subst hb
        have h' : trimSpace text = "" := by simpa using h
        simp [uploadAndIndex, uploadSelect, hext, finishSelect, h']
      · simp only [if_neg hb] at h
        simp [uploadAndIndex, uploadSelect, hext, finishSelect, hb, h]

/-- C3 witness: uploading whitespace-only inline text with no file is
rejected before any indexing. -/
theorem uploadAndIndex_empty_content_rejected_witness :
    ∃ msg, uploadAndIndex ⟨"", "", "", 1, 0⟩ (fun _ => .ok [1]) (fun _ _ _ => none)
      "   " none = .error msg :=
  uploadAndIndex_empty_content_rejected _ _ _ _ _ (by decide)

/-- C10 (amended): with a `.txt` file part present, a non-empty file content
takes precedence — the text field is ignored and the file content is selected
for indexing with the filename as source, except that whitespace-only file
content is rejected with a validation error (instead of being indexed as the
claim stated); only when the file content is empty does the handler fall back
to the text field, with the fixed source sentinel `"user_text"`. -/
theorem uploadSelect_file_precedence (text filename fileBytes : String)
    (hext : hasSuffix (toLowerStr filename) ".txt" = true) :
    (fileBytes ≠ "" → trimSpace fileBytes ≠ "" →
      uploadSelect text (some (filename, fileBytes)) = .ok (fileBytes, filename)) ∧
    (fileBytes ≠ "" → trimSpace fileBytes = "" →
      uploadSelect text (some (filename, fileBytes)) =
        .error "no se proporcionó texto ni archivo") ∧
    (fileBytes = "" →
      uploadSelect text (some (filename, fileBytes)) = uploadSelect text none) ∧
    (trimSpace text ≠ "" → uploadSelect text none = .ok (text, "user_text")) := by
  refine ⟨?_, ?_, ?_, ?_⟩
  · intro hb ht
    simp [uploadSelect, hext, finishSelect, hb, ht]
  · intro hb ht
    simp [uploadSelect, hext, finishSelect, hb, ht]
  · intro hb
    subst hb
    simp [uploadSelect, hext, finishSelect]
  · intro ht
    simp [uploadSelect, finishSelect, ht]

/-- C10 counterexample: a request carrying a `.txt` file with non-empty
(whitespace-only) content and a non-empty text field is rejected outright —
the file content is not indexed with the filename as source, contradicting
the claim's unconditional file-precedence indexing. -/
theorem uploadSelect_whitespace_file_counterexample :
    uploadSelect "hello" (some ("a.txt", " ")) =
      .error "no se proporcionó texto ni archivo" ∧
    (" " : String) ≠ "" ∧ ("hello" : String) ≠ "" :=
  ⟨rfl, by decide, by decide⟩

/-- C10 witness: non-empty file content wins over the text field; with no
file the text field is indexed under the `"user_text"` sentinel. -/
theorem uploadSelect_file_precedence_witness :
    uploadSelect "hello" (some ("a.txt", "data")) = .ok ("data", "a.txt") ∧
    uploadSelect "hello" none = .ok ("hello", "user_text") := by
  have h := uploadSelect_file_precedence "hello" "a.txt" "data" (by decide)
  exact ⟨h.1 (by decide) (by decide), h.2.2.2 (by decide)⟩

/-! ### Embedding theorems -/

/-- C9: `GenerateEmbedding` fails exactly when the upstream call fails to
complete (network error wrapped), the upstream returns a non-success status
(status code and body propagated into the error), the response body does not
decode into the expected shape, or the decoded vector is empty; in every
other case it returns the decoded non-empty vector. The five cases are
mutually exclusive and exhaustive over the oracle. -/
theorem GenerateEmbedding_error_characterisation
    (post : Except String OllamaEmbedHttpResp) :
    (∀ e, post = .error e →
      RAGService.GenerateEmbedding post = .error (.network e)) ∧
    (∀ r, post = .ok r → r.status ≠ 200 →
      RAGService.GenerateEmbedding post = .error (.status r.status r.rawBody)) ∧
    (∀ r e, post = .ok r → r.status = 200 → r.decodedEmbed = .error e →
      RAGService.GenerateEmbedding post = .error (.parse e)) ∧
    (∀ r, post = .ok r → r.status = 200 → r.decodedEmbed = .ok [] →
      RAGService.GenerateEmbedding post = .error .emptyVector) ∧
    (∀ r v, post = .ok r → r.status = 200 → r.decodedEmbed = .ok v → v ≠ [] →
      RAGService.GenerateEmbedding post = .ok v) := by
  refine ⟨?_, ?_, ?_, ?_, ?_⟩
  · rintro e rfl; rfl
  · rintro r rfl hs
    simp [RAGService.GenerateEmbedding, hs]
  · rintro r e rfl hs hd
    simp [RAGService.GenerateEmbedding, hs, hd]
  · rintro r rfl hs hd
    simp [RAGService.GenerateEmbedding, hs, hd]
  · rintro r v rfl hs hd hv
    simp [RAGService.GenerateEmbedding, hs, hd, hv]

/-- C9 witness: a 500 upstream response yields the status error carrying the
upstream status and body. -/
theorem GenerateEmbedding_error_characterisation_witness :
    RAGService.GenerateEmbedding (.ok ⟨500, "boom", .error "bad json"⟩) =
      .error (.status 500 "boom") :=
  (GenerateEmbedding_error_characterisation _).2.1 _ rfl (by decide)

/-! ### Vector store theorems -/

/-- C8: `SearchSimilar` with a non-positive `topK` returns the empty sequence
without error; with `topK` at least the store size it returns all stored
Fragments (a permutation of the store), ordered by ascending distance to the
query vector. -/
theorem SearchSimilar_topK_spec (dist : List ℚ → List ℚ → ℚ) (store : List Document)
    (q : List ℚ) (topK : Int) :
    (topK ≤ 0 → SearchSimilar dist store q topK = .ok []) ∧
    ((store.length : Int) ≤ topK →
      ∃ res, SearchSimilar dist store q topK = .ok res ∧
        res.Perm store ∧
        res.Sorted (fun a b => dist a.vector q ≤ dist b.vector q)) := by
  constructor
  · intro h
    have h0 : topK.toNat = 0 := by omega
    simp [SearchSimilar, h0]
  · intro h
    have hlen : store.length ≤ topK.toNat := by omega
    have hts : (store.insertionSort
        (fun a b => dist a.vector q ≤ dist b.vector q)).take topK.toNat =
        store.insertionSort (fun a b => dist a.vector q ≤ dist b.vector q) := by
      apply List.take_of_length_le
      rw [List.length_insertionSort]
      exact hlen
    refine ⟨store.insertionSort (fun a b => dist a.vector q ≤ dist b.vector q),
      ?_, ?_, ?_⟩
    · simp [SearchSimilar, hts]
    · exact List.perm_insertionSort _ _
    · haveI : IsTotal Document (fun a b => dist a.vector q ≤ dist b.vector q) :=
        ⟨fun a b => le_total _ _⟩
      haveI : IsTrans Document (fun a b => dist a.vector q ≤ dist b.vector q) :=
        ⟨fun a b c hab hbc => le_trans hab hbc⟩
      exact List.sorted_insertionSort _ store

/-- C8 witness: a two-row store — `topK = -1` yields no rows; `topK = 5`
(larger than the store) yields all rows, nearest first. -/
theorem SearchSimilar_topK_spec_witness :
    SearchSimilar (fun a _ => if a = [5] then 9 else 1)
      [⟨1, "far", "s", [5]⟩, ⟨2, "near", "s", [1]⟩] [0] (-1) = .ok [] ∧
    ∃ res, SearchSimilar (fun a _ => if a = [5] then 9 else 1)
        [⟨1, "far", "s", [5]⟩, ⟨2, "near", "s", [1]⟩] [0] 5 = .ok res ∧
      res.Perm [⟨1, "far", "s", [5]⟩, ⟨2, "near", "s", [1]⟩] ∧
      res.Sorted (fun a b =>
        (if a.vector = [5] then (9 : ℚ) else 1) ≤ (if b.vector = [5] then 9 else 1)) :=
  ⟨(SearchSimilar_topK_spec (fun a _ => if a = [5] then 9 else 1)
      [⟨1, "far", "s", [5]⟩, ⟨2, "near", "s", [1]⟩] [0] (-1)).1 (by decide),
   (SearchSimilar_topK_spec (fun a _ => if a = [5] then 9 else 1)
      [⟨1, "far", "s", [5]⟩, ⟨2, "near", "s", [1]⟩] [0] 5).2 (by decide)⟩

/-! ### Streaming theorems -/

/-- Prepending the empty string to a string changes nothing. -/
theorem string_empty_append (s : String) : "" ++ s = s := by
  cases s
  rfl

/-- Dropping the empty tokens from a list does not change its concatenation. -/
theorem concatAll_filter_ne_empty (l : List String) :
    concatAll (l.filter (fun t => t ≠ "")) = concatAll l := by
  induction l with
  | nil => rfl
  | cons s rest ih =>
    rw [List.filter_cons]
    by_cases hs : s = ""
    · subst hs
      rw [if_neg (by simp)]
      rw [ih]
      show concatAll rest = "" ++ concatAll rest
      exact (string_empty_append _).symm
    · rw [if_pos (by simpa using hs)]
      simp only [concatAll]
      exact congrArg (fun t => s ++ t) ih

/-- The generated text of a stream whose first completion-flagged increment is
`c` is the concatenation of the partial texts up to and including `c`. -/
theorem genTextUntilDone_split (pre : List GenChunk) (c : GenChunk)
    (post : List GenChunk) (hc : c.done = true) (hpre : ∀ x ∈ pre, x.done = false) :
    genTextUntilDone (pre ++ c :: post) =
      concatAll ((pre ++ [c]).map GenChunk.response) := by
  induction pre with
  | nil =>
    simp [genTextUntilDone, concatAll, hc]
  | cons x pre ih =>
    have hx := hpre x (by simp)
    simp only [List.cons_append, genTextUntilDone, hx, if_neg Bool.false_ne_true,
      List.map_cons, concatAll]
    exact congrArg (fun t => x.response ++ t) (ih (fun y hy => hpre y (by simp [hy])))

/-- The tokens the streaming loop forwards for a well-formed increment stream
with first completion-flagged increment `c` are exactly the non-empty partial
texts of the increments up to and including `c`, in order — increments after
`c` are never forwarded. -/
theorem forwardedTokens_split (pre : List GenChunk) (c : GenChunk)
    (post : List GenChunk) (hc : c.done = true) (hpre : ∀ x ∈ pre, x.done = false) :
    forwardedTokens ((pre ++ c :: post).map Except.ok) =
      ((pre ++ [c]).map GenChunk.response).filter (fun t => t ≠ "") := by
  induction pre with
  | nil =>
    simp only [List.nil_append, List.map_cons, forwardedTokens, hc, if_true,
      List.map_nil, List.filter_cons]
    by_cases hr : c.response = ""
    · simp [hr]
    · rw [if_neg hr, if_pos (by simpa using hr)]
      simp [List.filter]
  | cons x pre ih =>
    have hx := hpre x (by simp)
    have ih' := ih (fun y hy => hpre y (by simp [hy]))
    simp only [List.cons_append, List.map_cons, forwardedTokens, hx,
      if_neg Bool.false_ne_true, List.filter_cons]
    by_cases hr : x.response = ""
    · rw [if_pos hr, if_neg (by simp [hr])]
      simp only [List.nil_append]
      exact ih'
    · rw [if_neg hr, if_pos (by simpa using hr)]
      simp only [List.singleton_append]
      exact congrArg (fun t => x.response :: t) ih'

/-- C5: for every well-formed increment stream whose first completion-flagged
increment is `c`, the handler forwards exactly the non-empty partial texts up
to and including `c`, immediately and in order (increments after `c` are never
forwarded), and concatenating the forwarded tokens in order reconstructs the
full generated text exactly. -/
theorem Answer_stream_forwarding (pre : List GenChunk) (c : GenChunk)
    (post : List GenChunk) (hc : c.done = true)
    (hpre : ∀ x ∈ pre, x.done = false) :
    forwardedTokens ((pre ++ c :: post).map Except.ok) =
      ((pre ++ [c]).map GenChunk.response).filter (fun t => t ≠ "") ∧
    concatAll (forwardedTokens ((pre ++ c :: post).map Except.ok)) =
      genTextUntilDone (pre ++ c :: post) := by
  have h1 := forwardedTokens_split pre c post hc hpre
  refine ⟨h1, ?_⟩
  rw [h1, concatAll_filter_ne_empty]
  exact (genTextUntilDone_split pre c post hc hpre).symm

/-- C5 witness: the spec's streaming scenario — tokens `"Go"`, `" was"`,
`" created"` then a completion signal; the forwarded tokens concatenate to the
full generated text. -/
theorem Answer_stream_forwarding_witness :
    forwardedTokens ((([⟨"Go", false⟩, ⟨" was", false⟩, ⟨" created", false⟩] : List GenChunk) ++
        (⟨"", true⟩ : GenChunk) :: []).map Except.ok) = ["Go", " was", " created"] ∧
    concatAll ["Go", " was", " created"] = "Go was created" := by
  have h := Answer_stream_forwarding [⟨"Go", false⟩, ⟨" was", false⟩, ⟨" created", false⟩]
    ⟨"", true⟩ [] rfl (by decide)
  refine ⟨?_, by decide⟩
  rw [h.1]
  decide

/-- C6 counterexample: a backend stream that reaches end-of-stream without a
completion-flagged increment — the handler forwards the token and stops
without writing any terminal event, so the delivered event sequence does not
end in a done or error event. -/
theorem sseEvents_eof_without_done_counterexample :
    sseEvents [Except.ok ⟨"hi", false⟩] = [SseEvent.data "hi"] ∧
    SseEvent.isTerminal (SseEvent.data "hi") = false :=
  ⟨rfl, rfl⟩

/-- C6 (amended): whenever the decoded stream reaches a decode error or a
completion-flagged increment before end-of-stream, the delivered event
sequence ends in a terminal event (done or error); an end-of-stream without a
completion-flagged increment instead terminates the stream with no terminal
event. -/
theorem sseEvents_terminal_of_trigger (s : GenStream)
    (h : hasTerminalTrigger s = true) :
    ∃ ev, (sseEvents s).getLast? = some ev ∧ ev.isTerminal = true := by
  induction s with
  | nil => simp [hasTerminalTrigger] at h
  | cons x rest ih =>
    cases x with
    | error e =>
      exact ⟨.errorEvent (escapeErrText e), by simp [sseEvents], rfl⟩
    | ok c =>
      simp only [hasTerminalTrigger] at h
      cases hd : c.done with
      | true =>
        refine ⟨.doneEvent, ?_, rfl⟩
        simp only [sseEvents, hd, if_true]
        exact List.getLast?_concat _
      | false =>
        rw [hd, Bool.false_or] at h
        obtain ⟨ev, hev, hterm⟩ := ih h
        refine ⟨ev, ?_, hterm⟩
        simp only [sseEvents, hd]
        rw [if_neg Bool.false_ne_true]
        rw [List.getLast?_append_of_ne_nil _ (by intro hnil; rw [hnil] at hev; simp at hev)]
        exact hev

/-- C6 witness: a stream with a completion-flagged increment ends in a
terminal event. -/
theorem sseEvents_terminal_of_trigger_witness :
    ∃ ev, (sseEvents [Except.ok ⟨"Go", false⟩, Except.ok ⟨"", true⟩]).getLast? = some ev ∧
      ev.isTerminal = true :=
  sseEvents_terminal_of_trigger _ (by decide)

/-! ### Query endpoint theorem -/

/-- C4: the query handler passes `topK = 50` to the retrieval function for
every accepted request, including a request that supplies a top-K override
parameter `k = 3` — the caller-supplied override is never read, contradicting
the handler's own documentation comment that top-K is configurable via query
param `k`. -/
theorem queryHandler_ignores_topK_override :
    queryHandlerSearchCall ⟨"GET", [("q", "why go"), ("k", "3")]⟩ =
      some ("why go", 50) := by
  decide
